import Mathlib

/-!
Verification development for the `ls` reporting pass (src/lib/ls.js).

The file shallowly embeds the traversal / classification / filtering /
rendering pipeline of the `ls` command.  JavaScript objects that are mutated
in place (the shared Arborist `Node` objects carrying symbol-keyed traversal
fields, and the render items produced by `visit`) are modeled by an explicit
heap: traversal objects are addressed by `TId`, render items by their index
in an item store, and the symbol-keyed fields (`_depth`, `_dedupe`,
`_include`, `_invalid`, `_missing`, `_parent`, `_type`) live in a finite-map
`TId → TFields` that is updated exactly where the source assigns them.

External collaborators are modeled as data or from their documented
behaviour, never from this repository's spec:
* Arborist (graph provider): a `Graph` of `GNode`s and `Edge`s; `Node.satisfies`
  becomes the node datum `satisfiesL` (the set of positional specs the node
  satisfies); plain objects (missing placeholders, dedupe stubs) have no
  `satisfies` method, so calling it is a `TypeError`, modeled in `Except`.
* treeverse `breadth`: a queue-driven breadth-first walk that skips a
  traversal object it has already visited (its own `seen` map keyed on object
  identity), calls `getChildren` right after `visit` of the same object and
  returns the root's visit result.
* `String.prototype.localeCompare`: modeled for ASCII by the ICU root
  collation: primary pass compares case-folded characters (symbols < digits
  < letters), the tertiary pass puts a lowercase letter before the same
  uppercase letter.  This is deliberately not byte order.
* chalk: ANSI-SGR wrapping functions; npa: the node datum `resolvedNpaGit`;
  `os.EOL`: newline; `path.resolve(path, 'package.json')`: appending
  "/package.json".
-/

namespace NpmLs

/-! ### Model of String.prototype.localeCompare (external, ICU root collation on ASCII) -/

/-- Primary collation weight: symbols and punctuation sort below digits,
digits below letters, and a letter's weight ignores case. -/
def primaryWeight (c : Char) : Nat :=
  if c.isAlpha then 3000 + c.toLower.toNat
  else if c.isDigit then 2000 + c.toNat
  else 1 + c.toNat

/-- Tertiary collation weight: lowercase before uppercase of the same letter. -/
def tertiaryWeight (c : Char) : Nat :=
  if c.isUpper then 1 else 0

/-- Collation key: all primary weights first, then (separated by a sentinel
weight 0 smaller than every primary weight) all tertiary weights. -/
def collKey (s : String) : List Nat :=
  (s.data.map primaryWeight) ++ [0] ++ (s.data.map tertiaryWeight)

/-- Lexicographic non-strict order on weight lists. -/
def lexLeN : List Nat → List Nat → Bool
  | [], _ => true
  | _ :: _, [] => false
  | a :: as, b :: bs => if a < b then true else if b < a then false else lexLeN as bs

/-- Model of `a.localeCompare(b) <= 0`. -/
def lcLe (a b : String) : Bool := lexLeN (collKey a) (collKey b)

/-! ### Data model: the frozen Arborist graph (external provider) -/

/-- One entry of `node.errors`. -/
structure NErr where
  code : String
  path : String
deriving DecidableEq, Repr

/-- An Arborist `Edge` (`node.edgesOut` entry).  `to` is the id of the
resolved target node, if any. -/
structure Edge where
  name : String
  spec : String
  type : String
  eto : Option Nat
  missing : Bool
  invalid : Bool
  dev : Bool
  peer : Bool
  peerOptional : Bool
  optional : Bool
deriving DecidableEq, Repr

/-- An Arborist `Node`.  `satisfiesL` models the external `node.satisfies`
predicate as the list of positional specs this node satisfies;
`resolvedNpaGit` models `npa(node.resolved).type ∈ {git, hosted}`;
`packageKeys` is the number of keys of `node.package` and `description` its
`description` property. -/
structure GNode where
  name : String
  pkgid : String
  path : Option String
  realpath : Option String
  errors : List NErr
  extraneous : Bool
  isLink : Bool
  resolved : Option String
  resolvedNpaGit : Bool
  packageKeys : Nat
  description : Option String
  satisfiesL : List String
  edgesOut : List Edge
  children : List Nat
deriving DecidableEq, Repr

def dfltGNode : GNode :=
  { name := "", pkgid := "", path := none, realpath := none, errors := [],
    extraneous := false, isLink := false, resolved := none,
    resolvedNpaGit := false, packageKeys := 0, description := none,
    satisfiesL := [], edgesOut := [], children := [] }

/-- The loaded actual tree: node 0 is the root returned by `loadActual`. -/
structure Graph where
  nodes : List GNode
deriving DecidableEq, Repr

def Graph.node (g : Graph) (i : Nat) : GNode := g.nodes.getD i dfltGNode

/-- The configuration read from `npm.flatOptions` / `npm.config`.
`prefixPath` is `npm.prefix`, `globalRoot` is `resolve(npm.globalDir, '..')`. -/
structure Config where
  color : Bool
  depth : Nat
  long : Bool
  parseable : Bool
  unicode : Bool
  dev : Bool
  development : Bool
  link : Bool
  only : String
  prod : Bool
  production : Bool
  prefixPath : String
  globalRoot : String
deriving DecidableEq, Repr

/-! ### Traversal heap -/

/-- Address of a traversal object: a shared Arborist node (`node gid`) or a
freshly allocated plain object (missing placeholder or dedupe stub). -/
inductive TId where
  | node (gid : Nat)
  | fresh (fid : Nat)
deriving DecidableEq, Repr

/-- Payload of a freshly allocated plain object:
`ph name pkgid` is the missing placeholder `{ name, pkgid, [_missing]: ... }`
(it has no `path`, `errors`, `realpath`, `extraneous` or `package`);
`stub pkgid keys descr` is the dedupe node `{ pkgid, package, [_dedupe]: true }`. -/
inductive FreshData where
  | ph (name : String) (pkgid : String)
  | stub (pkgid : String) (packageKeys : Nat) (description : Option String)
deriving DecidableEq, Repr

/-- The symbol-keyed fields attached to a traversal object.  A JavaScript
property that was never assigned reads as `undefined`; the defaults below are
the falsy readings the source relies on.  (`tdepth` defaults to 0; the source
only ever reads `[_depth]` after it has been assigned: the root's in `visit`,
every other node's at creation in `getChildren`.) -/
structure TFields where
  ttype : Option String := none
  tinvalid : Bool := false
  tmissing : Option String := none
  tdedupe : Bool := false
  tparent : Option Nat := none
  tinclude : Bool := false
  tdepth : Nat := 0
deriving DecidableEq, Repr

/-- A render item `{ label, nodes }` produced by `visit` (the structure archy
prints).  `iinclude` records an `[_include]` assignment made on the item by
`shouldInclude`'s ancestor walk; the source never assigns `[_parent]` on an
item. -/
structure Item where
  label : String
  inodes : List Nat := []
  iinclude : Bool := false
deriving DecidableEq, Repr

def dfltItem : Item := { label := "" }

/-- The mutable state of one `ls` pass: the traversal-field heap, the store of
freshly allocated plain objects, the item store, treeverse's own seen map,
and the `seen` / `problems` sets of `ls` (insertion ordered). -/
structure St where
  fields : TId → TFields
  freshData : List FreshData
  items : List Item
  tvSeen : List TId
  lsSeen : List TId
  problems : List String

def setF (st : St) (t : TId) (f : TFields → TFields) : St :=
  { st with fields := fun u => if u = t then f (st.fields u) else st.fields u }

/-! ### Property reads on traversal objects -/

def truthyS : Option String → Bool
  | some s => s != ""
  | none => false

/-- JavaScript template interpolation of a possibly-undefined value. -/
def strOf (o : Option String) : String := o.getD "undefined"

def pkgidOf (g : Graph) (st : St) : TId → String
  | .node gid => (g.node gid).pkgid
  | .fresh fid =>
      match st.freshData.get? fid with
      | some (.ph _ pkgid) => pkgid
      | some (.stub pkgid _ _) => pkgid
      | none => ""

def pathOf (g : Graph) (_st : St) : TId → Option String
  | .node gid => (g.node gid).path
  | .fresh _ => none

def realpathOf (g : Graph) (_st : St) : TId → Option String
  | .node gid => (g.node gid).realpath
  | .fresh _ => none

def errorsOf (g : Graph) (_st : St) : TId → List NErr
  | .node gid => (g.node gid).errors
  | .fresh _ => []

def extraneousOf (g : Graph) (_st : St) : TId → Bool
  | .node gid => (g.node gid).extraneous
  | .fresh _ => false

def isLinkOf (g : Graph) (_st : St) : TId → Bool
  | .node gid => (g.node gid).isLink
  | .fresh _ => false

def resolvedOf (g : Graph) (_st : St) : TId → Option String
  | .node gid => (g.node gid).resolved
  | .fresh _ => none

def resolvedNpaGitOf (g : Graph) (_st : St) : TId → Bool
  | .node gid => (g.node gid).resolvedNpaGit
  | .fresh _ => false

/-- Reading `node.isRoot`: true exactly for the shared root node object. -/
def isRootOf : TId → Bool
  | .node gid => gid == 0
  | .fresh _ => false

/-- Reading `node.package`: `(number of keys, description)`, or `none` when the object
has no `package` property (missing placeholder). -/
def packageOf (g : Graph) (st : St) : TId → Option (Nat × Option String)
  | .node gid => some ((g.node gid).packageKeys, (g.node gid).description)
  | .fresh fid =>
      match st.freshData.get? fid with
      | some (.ph _ _) => none
      | some (.stub _ k d) => some (k, d)
      | none => none

/-- Calling `node.satisfies(spec)`: a method of Arborist nodes only; a plain object
(missing placeholder or dedupe stub) has none, so the call is a `TypeError`. -/
def satisfiesOf (g : Graph) (_st : St) (t : TId) (spec : String) : Except String Bool :=
  match t with
  | .node gid => .ok ((g.node gid).satisfiesL.contains spec)
  | .fresh _ => .error "TypeError: node.satisfies is not a function"

/-! ### getHumanOutputItem -/

def EOL : String := "\n"

/-- chalk (external), modeled as ANSI SGR wrapping. -/
def chalkYellowBgBlack (s : String) : String := "\x1b[33m\x1b[40m" ++ s ++ "\x1b[49m\x1b[39m"

def chalkRedBgBlack (s : String) : String := "\x1b[31m\x1b[40m" ++ s ++ "\x1b[49m\x1b[39m"

def chalkGreenBgBlack (s : String) : String := "\x1b[32m\x1b[40m" ++ s ++ "\x1b[49m\x1b[39m"

/-- Source `isGitNode`: `node.resolved` is truthy and npa classifies it as git/hosted. -/
def isGitNode (g : Graph) (st : St) (t : TId) : Bool :=
  truthyS (resolvedOf g st t) && resolvedNpaGitOf g st t

/-- The label/problem pair computed per visited traversal object.  Accessing
`node.package.description` (only under `long`) is a `TypeError` when the
object has no `package` property. -/
def getHumanOutputItem (g : Graph) (cfg : Config) (st : St) (t : TId) :
    Except String (String × String) :=
  let f := st.fields t
  let extraneous := extraneousOf g st t
  let pkgid := pkgidOf g st t
  let path := pathOf g st t
  let printable :=
    if isRootOf t then
      if ((packageOf g st t).getD (0, none)).1 = 0 then strOf path
      else pkgid ++ (if cfg.long then EOL else " ") ++ strOf path
    else pkgid
  let missingMsg :=
    "UNMET " ++ (if f.ttype == some "optional" then "OPTIONAL " else "") ++ "DEPENDENCY "
  let descr : Except String String :=
    if cfg.long then
      match packageOf g st t with
      | none => .error "TypeError: Cannot read property description of undefined"
      | some (_, d) => .ok (EOL ++ d.getD "")
    else .ok ""
  match descr with
  | .error e => .error e
  | .ok descrPart =>
    let label :=
      (if truthyS f.tmissing then
        (if cfg.color then chalkYellowBgBlack missingMsg else missingMsg) else "")
      ++ printable
      ++ (if f.tdedupe then " deduped" else "")
      ++ (if f.tinvalid then (if cfg.color then chalkRedBgBlack " invalid" else " invalid") else "")
      ++ (if extraneous then (if cfg.color then chalkGreenBgBlack " extraneous" else " extraneous") else "")
      ++ (if isGitNode g st t then " (" ++ strOf (resolvedOf g st t) ++ ")" else "")
      ++ (if isLinkOf g st t then " -> " ++ strOf (realpathOf g st t) else "")
      ++ descrPart
    let problem :=
      if truthyS f.tmissing then
        "missing: " ++ pkgid ++ ", required by " ++ (f.tmissing.getD "")
      else if f.tinvalid then "invalid: " ++ pkgid ++ " " ++ strOf path
      else if extraneous then "extraneous: " ++ pkgid ++ " " ++ strOf path
      else ""
    .ok (label, problem)

/-! ### edgesToNodes -/

/-- Source `edgesToNodes` for one edge of the node with pkgid `ownerPkgid`.  A missing
edge (or an optional one without a target) allocates the placeholder
`{ name, pkgid, [_missing]: edge.from.pkgid }`; either way `[_type]` and
`[_invalid]` are then assigned on the produced object.  A non-optional,
non-missing edge without a target would assign a property on `null`. -/
def edgesToNodes (_g : Graph) (ownerPkgid : String) (e : Edge) (st : St) :
    Except String (TId × St) :=
  if e.missing || (e.optional && e.eto.isNone) then
    let fid := st.freshData.length
    let t := TId.fresh fid
    let st1 := { st with freshData := st.freshData ++ [FreshData.ph e.name (e.name ++ "@" ++ e.spec)] }
    let st2 := setF st1 t (fun f => { f with tmissing := some ownerPkgid })
    let st3 := setF st2 t (fun f => { f with ttype := some e.type, tinvalid := e.invalid })
    .ok (t, st3)
  else
    match e.eto with
    | some gid =>
        let t := TId.node gid
        let st1 := setF st t (fun f => { f with ttype := some e.type, tinvalid := e.invalid })
        .ok (t, st1)
    | none => .error "TypeError: Cannot set properties of null"

/-! ### shouldInclude / filterByPositionalArgs -/

/-- Reading `[_parent]` on a render item: the property is never assigned on
items, so it is `undefined`. -/
def itemParentOf (_st : St) (_pid : Nat) : Option Nat := none

def setItemInclude (st : St) (pid : Nat) : St :=
  let it := st.items.getD pid dfltItem
  { st with items := st.items.set pid { it with iinclude := true } }

/-- The `while (p) { p[_include] = true; p = p[_parent] }` walk of
`shouldInclude`, started at the matched node's `[_parent]` (a render item).
Fueled recursion; since items never carry a `[_parent]`, the walk stops after
its first iteration. -/
def markAncestorsFuel : Nat → St → Option Nat → St
  | 0, st, _ => st
  | _ + 1, st, none => st
  | fuel + 1, st, some pid => markAncestorsFuel fuel (setItemInclude st pid) (itemParentOf st pid)

def markAncestors (st : St) (p : Option Nat) : St :=
  markAncestorsFuel (st.items.length + 1) st p

/-- Source `shouldInclude(node, opt)(spec)`. -/
def shouldInclude (g : Graph) (cfg : Config) (st : St) (t : TId) (spec : String) :
    Except String (Bool × St) :=
  match satisfiesOf g st t spec with
  | .error e => .error e
  | .ok true =>
      let st1 := if cfg.parseable then st else markAncestors st ((st.fields t).tparent)
      .ok (true, st1)
  | .ok false => .ok (false, st)

/-- Source `args.some(shouldInclude(node, opt))`: left to right with short-circuit. -/
def someShouldInclude (g : Graph) (cfg : Config) :
    List String → St → TId → Except String (Bool × St)
  | [], st, _ => .ok (false, st)
  | a :: rest, st, t =>
      match shouldInclude g cfg st t a with
      | .error e => .error e
      | .ok (true, st1) => .ok (true, st1)
      | .ok (false, st1) => someShouldInclude g cfg rest st1 t

def filterByPositionalArgs (g : Graph) (cfg : Config) (args : List String)
    (st : St) (t : TId) : Except String (Bool × St) :=
  if args.length > 0 then someShouldInclude g cfg args st t else .ok (true, st)

/-! ### getChildren -/

/-- The three kind filters applied to an edge; every `filterX` is conjoined
with `node === tree`, i.e. with `isRootNode`.  The `only` tests are the
anchored regexes `/^dev(elopment)?$/` and `/^prod(uction)?$/`. -/
def kindFilter (cfg : Config) (isRootNode : Bool) (g : Graph) (e : Edge) : Bool :=
  let filterDev := isRootNode &&
    (cfg.dev || cfg.development || (cfg.only == "dev" || cfg.only == "development"))
  let filterProd := isRootNode &&
    (cfg.prod || cfg.production || (cfg.only == "prod" || cfg.only == "production"))
  let filterLink := isRootNode && cfg.link
  (if filterDev then e.dev else true) &&
  (if filterProd then !e.dev && !e.peer && !e.peerOptional else true) &&
  (if filterLink then (match e.eto with
                       | some gid => (g.node gid).isLink
                       | none => false) else true)

def mapEdges (g : Graph) (ownerPkgid : String) :
    List Edge → St → Except String (List TId × St)
  | [], st => .ok ([], st)
  | e :: es, st =>
      match edgesToNodes g ownerPkgid e st with
      | .error err => .error err
      | .ok (t, st1) =>
          match mapEdges g ownerPkgid es st1 with
          | .error err => .error err
          | .ok (ts, st2) => .ok (t :: ts, st2)

/-- The `if (seen.has(i))` branch of `getChildren`'s second map: an already
visited traversal object is replaced by the fresh dedupe node
`{ pkgid: i.pkgid, package: i.package, [_dedupe]: true }`. -/
def dedupeSwap (g : Graph) (st : St) (i : TId) : TId × St :=
  if i ∈ st.lsSeen then
    let fid := st.freshData.length
    let pk := pkgidOf g st i
    let pkg := (packageOf g st i).getD (0, none)
    let st1 := { st with freshData := st.freshData ++ [FreshData.stub pk pkg.1 pkg.2] }
    let st2 := setF st1 (TId.fresh fid) (fun f => { f with tdedupe := true })
    (TId.fresh fid, st2)
  else (i, st)

/-- One step of `getChildren`'s second `.map`: dedupe swap, then the
`[_parent]`, `[_include]` and `[_depth]` assignments (the include value runs
the positional filter, which may walk ancestors or throw). -/
def processCandidate (g : Graph) (cfg : Config) (args : List String)
    (parentItemId parentDepth : Nat) (st : St) (i0 : TId) :
    Except String (TId × St) :=
  let (i, st1) := dedupeSwap g st i0
  let st2 := setF st1 i (fun f => { f with tparent := some parentItemId })
  match filterByPositionalArgs g cfg args st2 i with
  | .error e => .error e
  | .ok (inc, st3) =>
      let st4 := setF st3 i (fun f => { f with tinclude := inc })
      let st5 := setF st4 i (fun f => { f with tdepth := parentDepth + 1 })
      .ok (i, st5)

def mapCandidates (g : Graph) (cfg : Config) (args : List String)
    (parentItemId parentDepth : Nat) :
    List TId → St → Except String (List TId × St)
  | [], st => .ok ([], st)
  | i :: is, st =>
      match processCandidate g cfg args parentItemId parentDepth st i with
      | .error e => .error e
      | .ok (t, st1) =>
          match mapCandidates g cfg args parentItemId parentDepth is st1 with
          | .error e => .error e
          | .ok (ts, st2) => .ok (t :: ts, st2)

/-- Stable insertion into a list sorted by `localeCompare` on the key. -/
def insertSorted (key : TId → String) (x : TId) : List TId → List TId
  | [] => [x]
  | y :: ys => if lcLe (key x) (key y) then x :: y :: ys else y :: insertSorted key x ys

/-- Model of `Array.prototype.sort` with the comparator
`(a, b) => a.pkgid.localeCompare(b.pkgid)` (a stable sort consistent with the
comparator). -/
def sortPkg (key : TId → String) : List TId → List TId
  | [] => []
  | x :: xs => insertSorted key x (sortPkg key xs)

/-- Source `getChildren(node, nodeResult)`: a plain object (not an Arborist node) or
a node whose `[_depth]` exceeds the configured depth produces no children;
otherwise the declared edges pass the kind filters and `edgesToNodes`, the
extraneous materialized children are appended, every candidate is processed
(dedupe swap and field assignments), and the list is sorted by pkgid. -/
def getChildren (g : Graph) (cfg : Config) (args : List String) (t : TId)
    (itemId : Nat) (st : St) : Except String (List TId × St) :=
  match t with
  | .fresh _ => .ok ([], st)
  | .node gid =>
      let nd := g.node gid
      if (st.fields t).tdepth > cfg.depth then .ok ([], st)
      else
        let edges := nd.edgesOut.filter (kindFilter cfg (t == TId.node 0) g)
        match mapEdges g nd.pkgid edges st with
        | .error e => .error e
        | .ok (ids1, st1) =>
            let ids2 := ids1 ++ ((nd.children.filter (fun c => (g.node c).extraneous)).map TId.node)
            match mapCandidates g cfg args itemId ((st1.fields t).tdepth) ids2 st1 with
            | .error e => .error e
            | .ok (ids3, st2) => .ok (sortPkg (fun i => pkgidOf g st2 i) ids3, st2)

/-! ### visit and the breadth walk -/

def pushItemChild (st : St) (pid : Nat) (itemId : Nat) : St :=
  let it := st.items.getD pid dfltItem
  { st with items := st.items.set pid { it with inodes := it.inodes ++ [itemId] } }

/-- Source `if (problem) problems.add(problem)`: a JS Set adds only absent elements. -/
def visitProblemAdd (st : St) (problem : String) : St :=
  if problem != "" && !(st.problems.contains problem) then
    { st with problems := st.problems ++ [problem] }
  else st

/-- The tail of `visit`: append the item to its parent item's `nodes` when the
node is included and has a parent, and assign `[_depth] = 0` on the parentless
root. -/
def visitAttach (st : St) (t : TId) (itemId : Nat) : St :=
  let f := st.fields t
  let st4 :=
    match f.tparent with
    | some pid => if f.tinclude then pushItemChild st pid itemId else st
    | none => st
  match f.tparent with
  | none => setF st4 t (fun fl => { fl with tdepth := 0 })
  | some _ => st4

/-- Source `visit(node)`: record the object in `seen`, compute label and problem,
allocate the render item, collect the problem (a Set: add if absent), append
the item to its parent item's `nodes` when included, and assign the root's
`[_depth] = 0`.  Returns the new item's id. -/
def visit (g : Graph) (cfg : Config) (st : St) (t : TId) : Except String (Nat × St) :=
  let st1 := if t ∈ st.lsSeen then st else { st with lsSeen := st.lsSeen ++ [t] }
  match getHumanOutputItem g cfg st1 t with
  | .error e => .error e
  | .ok (label, problem) =>
      let itemId := st1.items.length
      let st2 := { st1 with items := st1.items ++ [({ label := label, inodes := [], iinclude := false } : Item)] }
      .ok (itemId, visitAttach (visitProblemAdd st2 problem) t itemId)

/-- treeverse `breadth` (external): dequeue, skip an object already visited,
otherwise visit it, compute its children and enqueue them.  Fueled. -/
def stepLoop (g : Graph) (cfg : Config) (args : List String) :
    Nat → List TId → St → Except String St
  | 0, [], st => .ok st
  | 0, _ :: _, _ => .error "fuel exhausted"
  | _ + 1, [], st => .ok st
  | fuel + 1, t :: queue, st =>
      if t ∈ st.tvSeen then stepLoop g cfg args fuel queue st
      else
        let st1 := { st with tvSeen := st.tvSeen ++ [t] }
        match visit g cfg st1 t with
        | .error e => .error e
        | .ok (itemId, st2) =>
            match getChildren g cfg args t itemId st2 with
            | .error e => .error e
            | .ok (kids, st3) => stepLoop g cfg args fuel (queue ++ kids) st3

/-- Initial state: `tree[_include] = args.length === 0`. -/
def initSt (args : List String) : St :=
  { fields := fun t =>
      if t = TId.node 0 then ({ tinclude := args.isEmpty } : TFields) else ({} : TFields),
    freshData := [], items := [], tvSeen := [], lsSeen := [], problems := [] }

/-! ### The tail of `ls`: rendering, exit status and thrown failures -/

/-- One effect of the `ls` pass, in program order: parseable output, tree
output (the archy structure handed to `output`), or a thrown error. -/
inductive Eff where
  | outP (s : String)
  | outTree (entries : List (Nat ⊕ String))
  | err (code : String) (msg : String)
deriving DecidableEq, Repr

/-- One parseable line for a traversal object in `seen`, or none when the
object fails `dep.path && dep[_include]`.  The `errors` read is reached only
for objects with a truthy `path` (hence real nodes). -/
def parseableLine (g : Graph) (cfg : Config) (st : St) (t : TId) : Option String :=
  let f := st.fields t
  let path := pathOf g st t
  if truthyS path && f.tinclude then
    some ((path.getD "") ++
      (if cfg.long then
        ":" ++ pkgidOf g st t
        ++ (if path ≠ realpathOf g st t then ":" ++ strOf (realpathOf g st t) else "")
        ++ (if extraneousOf g st t then ":EXTRANEOUS" else "")
        ++ (if (errorsOf g st t).length ≠ 0 && path ≠ some cfg.globalRoot then ":ERROR" else "")
        ++ (if f.tinvalid then ":INVALID" else "")
      else ""))
  else none

/-- The parseable rendering: one line (plus EOL) per `seen` entry that passes
the guard, in visitation order, the whole output trimmed once at the end. -/
def parseableOut (g : Graph) (cfg : Config) (st : St) : String :=
  (String.join ((st.lsSeen.filterMap (parseableLine g cfg st)).map (fun l => l ++ EOL))).trim

/-- Result of one `ls` pass. -/
structure LsOut where
  st : St
  resultNodes : List Nat
  finalEntries : List (Nat ⊕ String)
  exitCode : Nat
  effects : List Eff

/-- Source `[rootError] = tree.errors.filter(...)`: is there a recorded `EJSONPARSE`
error at the root's `package.json` path? -/
def hasRootParseError (g : Graph) (cfg : Config) : Bool :=
  !((g.node 0).errors.filter
      (fun e => e.code == "EJSONPARSE" && e.path == cfg.prefixPath ++ "/package.json")).isEmpty

/-- Everything after the breadth walk: the `(empty)` substitution and exit
status, the chosen rendering, and the two failure classifications (root parse
failure first, aggregate problems second), in program order. -/
def lsTail (g : Graph) (cfg : Config) (args : List String) (st : St) : LsOut :=
  let resultNodes := (st.items.getD 0 dfltItem).inodes
  let finalEntries : List (Nat ⊕ String) :=
    if resultNodes.length = 0 then [Sum.inr "(empty)"] else resultNodes.map Sum.inl
  let exitCode := if resultNodes.length = 0 && args.length != 0 then 1 else 0
  let outEff := if cfg.parseable then Eff.outP (parseableOut g cfg st) else Eff.outTree finalEntries
  let errEffs :=
    if hasRootParseError g cfg then
      [Eff.err "EJSONPARSE" "Failed to parse root package.json"]
    else if !st.problems.isEmpty then
      [Eff.err "ELSPROBLEMS" (String.intercalate EOL st.problems)]
    else []
  { st := st, resultNodes := resultNodes, finalEntries := finalEntries,
    exitCode := exitCode, effects := [outEff] ++ errEffs }

/-- The whole `ls` pass over a loaded actual tree, for a given fuel of the
breadth walk.  An `.error` result is a thrown `TypeError` (or exhausted fuel),
which in the source rejects the command's promise before any output. -/
def lsRun (g : Graph) (cfg : Config) (args : List String) (fuel : Nat) :
    Except String LsOut :=
  match stepLoop g cfg args fuel [TId.node 0] (initSt args) with
  | .error e => .error e
  | .ok st => .ok (lsTail g cfg args st)


/-! ### Basic lemmas about the collation order and the sibling sort -/

theorem lexLeN_total (a : List Nat) : ∀ b, lexLeN a b = true ∨ lexLeN b a = true := by
  induction a with
  | nil => intro b; left; rfl
  | cons x xs ih =>
    intro b
    cases b with
    | nil => right; rfl
    | cons y ys =>
      by_cases h1 : x < y
      · left; simp [lexLeN, h1]
      · by_cases h2 : y < x
        · right; simp [lexLeN, h2]
        · have hxy : x = y := by omega
          subst hxy
          rcases ih ys with h | h
          · left; simpa [lexLeN] using h
          · right; simpa [lexLeN] using h

theorem lexLeN_trans (a : List Nat) :
    ∀ b c, lexLeN a b = true → lexLeN b c = true → lexLeN a c = true := by
  induction a with
  | nil => intro b c _ _; rfl
  | cons x xs ih =>
    intro b c hab hbc
    cases b with
    | nil => simp [lexLeN] at hab
    | cons y ys =>
      cases c with
      | nil => simp [lexLeN] at hbc
      | cons z zs =>
        simp only [lexLeN] at hab hbc ⊢
        by_cases h1 : x < y
        · by_cases h2 : y < z
          · have : x < z := by omega
            simp [this]
          · by_cases h3 : z < y
            · simp [h2, h3] at hbc
            · have : y = z := by omega
              subst this
              simp [h1]
        · by_cases h4 : y < x
          · simp [h1, h4] at hab
          · have hxy : x = y := by omega
            subst hxy
            by_cases h2 : x < z
            · simp [h2]
            · by_cases h3 : z < x
              · simp [h2, h3] at hbc
              · have : x = z := by omega
                subst this
                simp [h2, h3] at hab hbc ⊢
                exact ih ys zs hab hbc

theorem lcLe_total (a b : String) : lcLe a b = true ∨ lcLe b a = true :=
  lexLeN_total (collKey a) (collKey b)

theorem lcLe_trans {a b c : String} (h1 : lcLe a b = true) (h2 : lcLe b c = true) :
    lcLe a c = true :=
  lexLeN_trans (collKey a) (collKey b) (collKey c) h1 h2

theorem mem_insertSorted (key : TId → String) (x : TId) :
    ∀ l z, z ∈ insertSorted key x l → z = x ∨ z ∈ l := by
  intro l
  induction l with
  | nil => intro z hz; simp [insertSorted] at hz; left; exact hz
  | cons y ys ih =>
    intro z hz
    simp only [insertSorted] at hz
    by_cases h : lcLe (key x) (key y) = true
    · simp [h] at hz
      rcases hz with hz | hz | hz
      · left; exact hz
      · right; simp [hz]
      · right; simp [hz]
    · simp [h] at hz
      rcases hz with hz | hz
      · right; simp [hz]
      · rcases ih z hz with h' | h'
        · left; exact h'
        · right; simp [h']

theorem pairwise_insertSorted (key : TId → String) (x : TId) :
    ∀ l, l.Pairwise (fun a b => lcLe (key a) (key b) = true) →
      (insertSorted key x l).Pairwise (fun a b => lcLe (key a) (key b) = true) := by
  intro l
  induction l with
  | nil => intro _; simp [insertSorted]
  | cons y ys ih =>
    intro h
    rcases List.pairwise_cons.mp h with ⟨hy, hys⟩
    simp only [insertSorted]
    by_cases hxy : lcLe (key x) (key y) = true
    · simp only [hxy, if_true]
      refine List.pairwise_cons.mpr ⟨?_, h⟩
      intro z hz
      rcases List.mem_cons.mp hz with heq | hz'
      · subst heq; exact hxy
      · exact lcLe_trans hxy (hy z hz')
    · simp only [hxy, if_false]
      refine List.pairwise_cons.mpr ⟨?_, ih hys⟩
      intro z hz
      rcases mem_insertSorted key x ys z hz with heq | hz'
      · rw [heq]
        rcases lcLe_total (key x) (key y) with h' | h'
        · exact absurd h' hxy
        · exact h'
      · exact hy z hz'

theorem pairwise_sortPkg (key : TId → String) :
    ∀ l, (sortPkg key l).Pairwise (fun a b => lcLe (key a) (key b) = true) := by
  intro l
  induction l with
  | nil => simp [sortPkg]
  | cons x xs ih => exact pairwise_insertSorted key x (sortPkg key xs) ih

/-! ### Projection lemmas for the state updates -/

@[simp] theorem setF_fields (st : St) (t : TId) (f : TFields → TFields) (u : TId) :
    (setF st t f).fields u = if u = t then f (st.fields u) else st.fields u := rfl

@[simp] theorem setF_problems (st : St) (t : TId) (f : TFields → TFields) :
    (setF st t f).problems = st.problems := rfl

@[simp] theorem setF_lsSeen (st : St) (t : TId) (f : TFields → TFields) :
    (setF st t f).lsSeen = st.lsSeen := rfl

@[simp] theorem setF_tvSeen (st : St) (t : TId) (f : TFields → TFields) :
    (setF st t f).tvSeen = st.tvSeen := rfl

@[simp] theorem setF_items (st : St) (t : TId) (f : TFields → TFields) :
    (setF st t f).items = st.items := rfl

@[simp] theorem setF_freshData (st : St) (t : TId) (f : TFields → TFields) :
    (setF st t f).freshData = st.freshData := rfl

@[simp] theorem setItemInclude_proj (st : St) (pid : Nat) :
    (setItemInclude st pid).fields = st.fields ∧
    (setItemInclude st pid).problems = st.problems ∧
    (setItemInclude st pid).lsSeen = st.lsSeen ∧
    (setItemInclude st pid).tvSeen = st.tvSeen ∧
    (setItemInclude st pid).freshData = st.freshData :=
  ⟨rfl, rfl, rfl, rfl, rfl⟩

@[simp] theorem pushItemChild_fields (st : St) (pid itemId : Nat) :
    (pushItemChild st pid itemId).fields = st.fields := rfl

@[simp] theorem pushItemChild_problems (st : St) (pid itemId : Nat) :
    (pushItemChild st pid itemId).problems = st.problems := rfl

@[simp] theorem pushItemChild_lsSeen (st : St) (pid itemId : Nat) :
    (pushItemChild st pid itemId).lsSeen = st.lsSeen := rfl

@[simp] theorem pushItemChild_tvSeen (st : St) (pid itemId : Nat) :
    (pushItemChild st pid itemId).tvSeen = st.tvSeen := rfl


/-! ### Preservation lemmas for the traversal state -/

/-- The depth invariant: no traversal object's recorded depth exceeds D + 1. -/
def DepthBound (D : Nat) (st : St) : Prop := ∀ t, (st.fields t).tdepth ≤ D + 1

theorem markAncestorsFuel_proj (n : Nat) :
    ∀ (st : St) (p : Option Nat),
      (markAncestorsFuel n st p).fields = st.fields ∧
      (markAncestorsFuel n st p).problems = st.problems ∧
      (markAncestorsFuel n st p).lsSeen = st.lsSeen ∧
      (markAncestorsFuel n st p).tvSeen = st.tvSeen ∧
      (markAncestorsFuel n st p).freshData = st.freshData := by
  induction n with
  | zero => intro st p; exact ⟨rfl, rfl, rfl, rfl, rfl⟩
  | succ m ih =>
    intro st p
    cases p with
    | none => exact ⟨rfl, rfl, rfl, rfl, rfl⟩
    | some pid =>
      have h := ih (setItemInclude st pid) (itemParentOf st pid)
      simpa [markAncestorsFuel, setItemInclude, itemParentOf] using h

theorem markAncestors_proj (st : St) (p : Option Nat) :
    (markAncestors st p).fields = st.fields ∧
    (markAncestors st p).problems = st.problems ∧
    (markAncestors st p).lsSeen = st.lsSeen ∧
    (markAncestors st p).tvSeen = st.tvSeen ∧
    (markAncestors st p).freshData = st.freshData :=
  markAncestorsFuel_proj (st.items.length + 1) st p

theorem shouldInclude_proj (g : Graph) (cfg : Config) (st : St) (t : TId) (a : String)
    (b : Bool) (st' : St) (h : shouldInclude g cfg st t a = .ok (b, st')) :
    st'.fields = st.fields ∧ st'.problems = st.problems ∧ st'.lsSeen = st.lsSeen ∧
    st'.tvSeen = st.tvSeen ∧ st'.freshData = st.freshData := by
  unfold shouldInclude at h
  cases hs : satisfiesOf g st t a with
  | error e => rw [hs] at h; exact absurd h (by simp)
  | ok bv =>
    rw [hs] at h
    cases bv with
    | false =>
      simp only [Except.ok.injEq, Prod.mk.injEq] at h
      obtain ⟨-, hst⟩ := h
      subst hst
      exact ⟨rfl, rfl, rfl, rfl, rfl⟩
    | true =>
      simp only [Except.ok.injEq, Prod.mk.injEq] at h
      obtain ⟨-, hst⟩ := h
      subst hst
      by_cases hp : cfg.parseable = true
      · simp [hp]
      · simp only [hp, if_false]
        exact markAncestors_proj st ((st.fields t).tparent)

theorem someShouldInclude_proj (g : Graph) (cfg : Config) :
    ∀ (args : List String) (st : St) (t : TId) (b : Bool) (st' : St),
      someShouldInclude g cfg args st t = .ok (b, st') →
      st'.fields = st.fields ∧ st'.problems = st.problems ∧ st'.lsSeen = st.lsSeen ∧
      st'.tvSeen = st.tvSeen ∧ st'.freshData = st.freshData := by
  intro args
  induction args with
  | nil =>
    intro st t b st' h
    simp only [someShouldInclude, Except.ok.injEq, Prod.mk.injEq] at h
    rw [← h.2]
    exact ⟨rfl, rfl, rfl, rfl, rfl⟩
  | cons a rest ih =>
    intro st t b st' h
    simp only [someShouldInclude] at h
    cases hs : shouldInclude g cfg st t a with
    | error e => rw [hs] at h; exact absurd h (by simp)
    | ok p =>
      rw [hs] at h
      obtain ⟨bv, st1⟩ := p
      have h1 := shouldInclude_proj g cfg st t a bv st1 hs
      cases bv with
      | true =>
        simp only [Except.ok.injEq, Prod.mk.injEq] at h
        rw [← h.2]
        exact h1
      | false =>
        simp only at h
        have h2 := ih st1 t b st' h
        exact ⟨h2.1.trans h1.1, h2.2.1.trans h1.2.1, h2.2.2.1.trans h1.2.2.1,
               h2.2.2.2.1.trans h1.2.2.2.1, h2.2.2.2.2.trans h1.2.2.2.2⟩

theorem filterByPositionalArgs_proj (g : Graph) (cfg : Config) (args : List String)
    (st : St) (t : TId) (b : Bool) (st' : St)
    (h : filterByPositionalArgs g cfg args st t = .ok (b, st')) :
    st'.fields = st.fields ∧ st'.problems = st.problems ∧ st'.lsSeen = st.lsSeen ∧
    st'.tvSeen = st.tvSeen ∧ st'.freshData = st.freshData := by
  unfold filterByPositionalArgs at h
  by_cases hl : args.length > 0
  · simp only [hl, if_true] at h
    exact someShouldInclude_proj g cfg args st t b st' h
  · simp only [hl, if_false, Except.ok.injEq, Prod.mk.injEq] at h
    rw [← h.2]
    exact ⟨rfl, rfl, rfl, rfl, rfl⟩


theorem nodup_append_one {α : Type _} (l : List α) (a : α) (hl : l.Nodup) (ha : a ∉ l) :
    (l ++ [a]).Nodup := by
  rw [List.nodup_append]
  refine ⟨hl, List.nodup_singleton a, ?_⟩
  intro x hx hx'
  simp only [List.mem_singleton] at hx'
  subst hx'
  exact ha hx

theorem DepthBound_of_eq {D : Nat} {st st' : St}
    (he : ∀ u, (st'.fields u).tdepth = (st.fields u).tdepth)
    (h : DepthBound D st) : DepthBound D st' := by
  intro u
  rw [he u]
  exact h u

theorem edgesToNodes_proj (g : Graph) (opk : String) (e : Edge) (st : St)
    (t : TId) (st' : St) (h : edgesToNodes g opk e st = .ok (t, st')) :
    st'.problems = st.problems ∧ st'.lsSeen = st.lsSeen ∧ st'.tvSeen = st.tvSeen ∧
    st'.items = st.items ∧ ∀ u, (st'.fields u).tdepth = (st.fields u).tdepth := by
  unfold edgesToNodes at h
  by_cases hc : (e.missing || (e.optional && e.eto.isNone)) = true
  · rw [if_pos hc] at h
    injection h with hpair
    injection hpair with ht hst
    subst hst
    refine ⟨rfl, rfl, rfl, rfl, ?_⟩
    intro u
    by_cases hu : u = TId.fresh st.freshData.length <;> simp [setF, hu]
  · rw [if_neg hc] at h
    cases he : e.eto with
    | none => rw [he] at h; exact absurd h (by simp)
    | some gid =>
      rw [he] at h
      injection h with hpair
      injection hpair with ht hst
      subst hst
      refine ⟨rfl, rfl, rfl, rfl, ?_⟩
      intro u
      by_cases hu : u = TId.node gid <;> simp [setF, hu]

theorem mapEdges_proj (g : Graph) (opk : String) :
    ∀ (es : List Edge) (st : St) (ts : List TId) (st' : St),
      mapEdges g opk es st = .ok (ts, st') →
      st'.problems = st.problems ∧ st'.lsSeen = st.lsSeen ∧ st'.tvSeen = st.tvSeen ∧
      st'.items = st.items ∧ ∀ u, (st'.fields u).tdepth = (st.fields u).tdepth := by
  intro es
  induction es with
  | nil =>
    intro st ts st' h
    simp only [mapEdges] at h
    injection h with hpair
    injection hpair with hts hst
    subst hst
    exact ⟨rfl, rfl, rfl, rfl, fun u => rfl⟩
  | cons e es ih =>
    intro st ts st' h
    simp only [mapEdges] at h
    cases h1 : edgesToNodes g opk e st with
    | error err => simp only [h1] at h; exact Except.noConfusion h
    | ok p =>
      obtain ⟨t1, st1⟩ := p
      simp only [h1] at h
      cases h2 : mapEdges g opk es st1 with
      | error err => simp only [h2] at h; exact Except.noConfusion h
      | ok q =>
        obtain ⟨ts2, st2⟩ := q
        simp only [h2] at h
        injection h with hpair
        injection hpair with hts hst
        subst hst
        have p1 := edgesToNodes_proj g opk e st t1 st1 h1
        have p2 := ih st1 ts2 st2 h2
        exact ⟨p2.1.trans p1.1, p2.2.1.trans p1.2.1, p2.2.2.1.trans p1.2.2.1,
               p2.2.2.2.1.trans p1.2.2.2.1,
               fun u => (p2.2.2.2.2 u).trans (p1.2.2.2.2 u)⟩

theorem dedupeSwap_proj (g : Graph) (st : St) (i : TId) :
    (dedupeSwap g st i).2.problems = st.problems ∧
    (dedupeSwap g st i).2.lsSeen = st.lsSeen ∧
    (dedupeSwap g st i).2.tvSeen = st.tvSeen ∧
    (dedupeSwap g st i).2.items = st.items ∧
    ∀ u, ((dedupeSwap g st i).2.fields u).tdepth = (st.fields u).tdepth := by
  by_cases hm : i ∈ st.lsSeen
  · unfold dedupeSwap
    rw [if_pos hm]
    refine ⟨rfl, rfl, rfl, rfl, ?_⟩
    intro u
    by_cases hu : u = TId.fresh st.freshData.length <;> simp [setF, hu]
  · unfold dedupeSwap
    rw [if_neg hm]
    exact ⟨rfl, rfl, rfl, rfl, fun u => rfl⟩

theorem processCandidate_proj (g : Graph) (cfg : Config) (args : List String)
    (pid pd : Nat) (st : St) (i0 t : TId) (st' : St)
    (h : processCandidate g cfg args pid pd st i0 = .ok (t, st')) :
    st'.problems = st.problems ∧ st'.lsSeen = st.lsSeen ∧ st'.tvSeen = st.tvSeen := by
  unfold processCandidate at h
  cases hd : dedupeSwap g st i0 with
  | mk i st1 =>
    rw [hd] at h
    simp only at h
    cases hf : filterByPositionalArgs g cfg args (setF st1 i fun f => { f with tparent := some pid }) i with
    | error e => simp only [hf] at h; exact Except.noConfusion h
    | ok p =>
      obtain ⟨inc, st3⟩ := p
      simp only [hf] at h
      injection h with hpair
      injection hpair with ht hst
      subst hst
      have pf := filterByPositionalArgs_proj g cfg args _ i inc st3 hf
      have pd1 := dedupeSwap_proj g st i0
      rw [hd] at pd1
      simp only at pd1
      exact ⟨pf.2.1.trans pd1.1, pf.2.2.1.trans pd1.2.1, pf.2.2.2.1.trans pd1.2.2.1⟩

theorem processCandidate_depth (g : Graph) (cfg : Config) (args : List String)
    (pid pd : Nat) (st : St) (i0 t : TId) (st' : St) (D : Nat)
    (h : processCandidate g cfg args pid pd st i0 = .ok (t, st'))
    (hD : DepthBound D st) (hpd : pd ≤ D) : DepthBound D st' := by
  unfold processCandidate at h
  cases hd : dedupeSwap g st i0 with
  | mk i st1 =>
    rw [hd] at h
    simp only at h
    cases hf : filterByPositionalArgs g cfg args (setF st1 i fun f => { f with tparent := some pid }) i with
    | error e => simp only [hf] at h; exact Except.noConfusion h
    | ok p =>
      obtain ⟨inc, st3⟩ := p
      simp only [hf] at h
      injection h with hpair
      injection hpair with ht hst
      subst hst
      have pd1 := dedupeSwap_proj g st i0
      rw [hd] at pd1
      simp only at pd1
      have hD1 : DepthBound D st1 := DepthBound_of_eq pd1.2.2.2.2 hD
      have hD2 : DepthBound D (setF st1 i fun f => { f with tparent := some pid }) := by
        intro u
        by_cases hu : u = i <;> simp [setF, hu]
        · exact hD1 i
        · exact hD1 u
      have pf := filterByPositionalArgs_proj g cfg args _ i inc st3 hf
      have hD3 : DepthBound D st3 := by
        intro u
        rw [pf.1]
        exact hD2 u
      intro u
      by_cases hu : u = i <;> simp [setF, hu]
      · omega
      · exact hD3 u

theorem mapCandidates_proj (g : Graph) (cfg : Config) (args : List String)
    (pid pd : Nat) :
    ∀ (is : List TId) (st : St) (ts : List TId) (st' : St),
      mapCandidates g cfg args pid pd is st = .ok (ts, st') →
      st'.problems = st.problems ∧ st'.lsSeen = st.lsSeen ∧ st'.tvSeen = st.tvSeen := by
  intro is
  induction is with
  | nil =>
    intro st ts st' h
    simp only [mapCandidates] at h
    injection h with hpair
    injection hpair with hts hst
    subst hst
    exact ⟨rfl, rfl, rfl⟩
  | cons i is ih =>
    intro st ts st' h
    simp only [mapCandidates] at h
    cases h1 : processCandidate g cfg args pid pd st i with
    | error e => simp only [h1] at h; exact Except.noConfusion h
    | ok p =>
      obtain ⟨t1, st1⟩ := p
      simp only [h1] at h
      cases h2 : mapCandidates g cfg args pid pd is st1 with
      | error e => simp only [h2] at h; exact Except.noConfusion h
      | ok q =>
        obtain ⟨ts2, st2⟩ := q
        simp only [h2] at h
        injection h with hpair
        injection hpair with hts hst
        subst hst
        have p1 := processCandidate_proj g cfg args pid pd st i t1 st1 h1
        have p2 := ih st1 ts2 st2 h2
        exact ⟨p2.1.trans p1.1, p2.2.1.trans p1.2.1, p2.2.2.trans p1.2.2⟩

theorem mapCandidates_depth (g : Graph) (cfg : Config) (args : List String)
    (pid pd : Nat) (D : Nat) (hpd : pd ≤ D) :
    ∀ (is : List TId) (st : St) (ts : List TId) (st' : St),
      mapCandidates g cfg args pid pd is st = .ok (ts, st') →
      DepthBound D st → DepthBound D st' := by
  intro is
  induction is with
  | nil =>
    intro st ts st' h hD
    simp only [mapCandidates] at h
    injection h with hpair
    injection hpair with hts hst
    subst hst
    exact hD
  | cons i is ih =>
    intro st ts st' h hD
    simp only [mapCandidates] at h
    cases h1 : processCandidate g cfg args pid pd st i with
    | error e => simp only [h1] at h; exact Except.noConfusion h
    | ok p =>
      obtain ⟨t1, st1⟩ := p
      simp only [h1] at h
      cases h2 : mapCandidates g cfg args pid pd is st1 with
      | error e => simp only [h2] at h; exact Except.noConfusion h
      | ok q =>
        obtain ⟨ts2, st2⟩ := q
        simp only [h2] at h
        injection h with hpair
        injection hpair with hts hst
        subst hst
        exact ih st1 ts2 st2 h2 (processCandidate_depth g cfg args pid pd st i t1 st1 D h1 hD hpd)


theorem visitProblemAdd_proj (st : St) (pro : String) :
    (visitProblemAdd st pro).fields = st.fields ∧
    (visitProblemAdd st pro).lsSeen = st.lsSeen ∧
    (visitProblemAdd st pro).tvSeen = st.tvSeen ∧
    (visitProblemAdd st pro).freshData = st.freshData ∧
    (st.problems.Nodup → (visitProblemAdd st pro).problems.Nodup) := by
  unfold visitProblemAdd
  by_cases hc : (pro != "" && !(st.problems.contains pro)) = true
  · rw [if_pos hc]
    refine ⟨rfl, rfl, rfl, rfl, ?_⟩
    intro hn
    apply nodup_append_one _ _ hn
    intro hmem
    simp only [Bool.and_eq_true, Bool.not_eq_true'] at hc
    have : st.problems.contains pro = true := by simpa using hmem
    rw [this] at hc
    exact Bool.noConfusion hc.2
  · rw [if_neg hc]
    exact ⟨rfl, rfl, rfl, rfl, fun hn => hn⟩

theorem visitAttach_proj (st : St) (t : TId) (itemId : Nat) :
    (visitAttach st t itemId).problems = st.problems ∧
    (visitAttach st t itemId).lsSeen = st.lsSeen ∧
    (visitAttach st t itemId).tvSeen = st.tvSeen ∧
    (visitAttach st t itemId).freshData = st.freshData ∧
    (∀ D, DepthBound D st → DepthBound D (visitAttach st t itemId)) := by
  unfold visitAttach
  cases hp : (st.fields t).tparent with
  | some pid =>
    simp only [hp]
    by_cases hi : (st.fields t).tinclude = true
    · rw [if_pos hi]
      exact ⟨rfl, rfl, rfl, rfl, fun D hD => hD⟩
    · rw [if_neg hi]
      exact ⟨rfl, rfl, rfl, rfl, fun D hD => hD⟩
  | none =>
    simp only [hp]
    refine ⟨rfl, rfl, rfl, rfl, ?_⟩
    intro D hD u
    by_cases hu : u = t <;> simp [setF, hu]
    exact hD u

/-- Combined effect of the problem collection and the attach step of `visit`. -/
theorem visitTail_props (st0 : St) (pro : String) (t : TId) (iid : Nat) :
    (visitAttach (visitProblemAdd st0 pro) t iid).tvSeen = st0.tvSeen ∧
    (st0.problems.Nodup → (visitAttach (visitProblemAdd st0 pro) t iid).problems.Nodup) ∧
    (st0.lsSeen.Nodup → (visitAttach (visitProblemAdd st0 pro) t iid).lsSeen.Nodup) ∧
    (∀ D, DepthBound D st0 → DepthBound D (visitAttach (visitProblemAdd st0 pro) t iid)) := by
  have hpa := visitProblemAdd_proj st0 pro
  have hva := visitAttach_proj (visitProblemAdd st0 pro) t iid
  refine ⟨?_, ?_, ?_, ?_⟩
  · rw [hva.2.2.1, hpa.2.2.1]
  · intro hn
    rw [hva.1]
    exact hpa.2.2.2.2 hn
  · intro hn
    rw [hva.2.1, hpa.2.1]
    exact hn
  · intro D hD
    refine hva.2.2.2.2 D ?_
    intro u
    rw [congrFun hpa.1 u]
    exact hD u

theorem visit_props (g : Graph) (cfg : Config) (st : St) (t : TId)
    (itemId : Nat) (st' : St) (h : visit g cfg st t = .ok (itemId, st')) :
    st'.tvSeen = st.tvSeen ∧
    (st.problems.Nodup → st'.problems.Nodup) ∧
    (st.lsSeen.Nodup → st'.lsSeen.Nodup) ∧
    (∀ D, DepthBound D st → DepthBound D st') := by
  unfold visit at h
  by_cases hm : t ∈ st.lsSeen
  · rw [if_pos hm] at h
    cases hg : getHumanOutputItem g cfg st t with
    | error e => simp only [hg] at h; exact Except.noConfusion h
    | ok p =>
      obtain ⟨label, problem⟩ := p
      simp only [hg] at h
      injection h with hpair
      injection hpair with hid hst
      subst hst
      have tp := visitTail_props
        { st with items := st.items ++ [({ label := label, inodes := [], iinclude := false } : Item)] }
        problem t st.items.length
      exact ⟨tp.1, fun hn => tp.2.1 hn, fun hn => tp.2.2.1 hn,
             fun D hD => tp.2.2.2 D (fun u => hD u)⟩
  · rw [if_neg hm] at h
    cases hg : getHumanOutputItem g cfg { st with lsSeen := st.lsSeen ++ [t] } t with
    | error e => simp only [hg] at h; exact Except.noConfusion h
    | ok p =>
      obtain ⟨label, problem⟩ := p
      simp only [hg] at h
      injection h with hpair
      injection hpair with hid hst
      subst hst
      have tp := visitTail_props
        { st with lsSeen := st.lsSeen ++ [t],
                  items := st.items ++ [({ label := label, inodes := [], iinclude := false } : Item)] }
        problem t st.items.length
      exact ⟨tp.1, fun hn => tp.2.1 hn, fun hn => tp.2.2.1 (nodup_append_one _ _ hn hm),
             fun D hD => tp.2.2.2 D (fun u => hD u)⟩

theorem getChildren_proj (g : Graph) (cfg : Config) (args : List String)
    (t : TId) (itemId : Nat) (st : St) (kids : List TId) (st' : St)
    (h : getChildren g cfg args t itemId st = .ok (kids, st')) :
    st'.problems = st.problems ∧ st'.lsSeen = st.lsSeen ∧ st'.tvSeen = st.tvSeen := by
  cases t with
  | fresh fid =>
    simp only [getChildren] at h
    injection h with hpair
    injection hpair with hk hst
    subst hst
    exact ⟨rfl, rfl, rfl⟩
  | node gid =>
    simp only [getChildren] at h
    by_cases hdep : (st.fields (TId.node gid)).tdepth > cfg.depth
    · rw [if_pos hdep] at h
      injection h with hpair
      injection hpair with hk hst
      subst hst
      exact ⟨rfl, rfl, rfl⟩
    · rw [if_neg hdep] at h
      cases h1 : mapEdges g (g.node gid).pkgid
          ((g.node gid).edgesOut.filter (kindFilter cfg (TId.node gid == TId.node 0) g)) st with
      | error e => simp only [h1] at h; exact Except.noConfusion h
      | ok p =>
        obtain ⟨ids1, st1⟩ := p
        simp only [h1] at h
        cases h2 : mapCandidates g cfg args itemId ((st1.fields (TId.node gid)).tdepth)
            (ids1 ++ ((g.node gid).children.filter (fun c => (g.node c).extraneous)).map TId.node) st1 with
        | error e => simp only [h2] at h; exact Except.noConfusion h
        | ok q =>
          obtain ⟨ids3, st2⟩ := q
          simp only [h2] at h
          injection h with hpair
          injection hpair with hk hst
          subst hst
          have p1 := mapEdges_proj g (g.node gid).pkgid _ st ids1 st1 h1
          have p2 := mapCandidates_proj g cfg args itemId _ _ st1 ids3 st2 h2
          exact ⟨p2.1.trans p1.1, p2.2.1.trans p1.2.1, p2.2.2.trans p1.2.2.1⟩

theorem getChildren_depth (g : Graph) (cfg : Config) (args : List String)
    (t : TId) (itemId : Nat) (st : St) (kids : List TId) (st' : St)
    (h : getChildren g cfg args t itemId st = .ok (kids, st'))
    (hD : DepthBound cfg.depth st) : DepthBound cfg.depth st' := by
  cases t with
  | fresh fid =>
    simp only [getChildren] at h
    injection h with hpair
    injection hpair with hk hst
    subst hst
    exact hD
  | node gid =>
    simp only [getChildren] at h
    by_cases hdep : (st.fields (TId.node gid)).tdepth > cfg.depth
    · rw [if_pos hdep] at h
      injection h with hpair
      injection hpair with hk hst
      subst hst
      exact hD
    · rw [if_neg hdep] at h
      cases h1 : mapEdges g (g.node gid).pkgid
          ((g.node gid).edgesOut.filter (kindFilter cfg (TId.node gid == TId.node 0) g)) st with
      | error e => simp only [h1] at h; exact Except.noConfusion h
      | ok p =>
        obtain ⟨ids1, st1⟩ := p
        simp only [h1] at h
        cases h2 : mapCandidates g cfg args itemId ((st1.fields (TId.node gid)).tdepth)
            (ids1 ++ ((g.node gid).children.filter (fun c => (g.node c).extraneous)).map TId.node) st1 with
        | error e => simp only [h2] at h; exact Except.noConfusion h
        | ok q =>
          obtain ⟨ids3, st2⟩ := q
          simp only [h2] at h
          injection h with hpair
          injection hpair with hk hst
          subst hst
          have p1 := mapEdges_proj g (g.node gid).pkgid _ st ids1 st1 h1
          have hD1 : DepthBound cfg.depth st1 := DepthBound_of_eq p1.2.2.2.2 hD
          have hpd : (st1.fields (TId.node gid)).tdepth ≤ cfg.depth := by
            rw [p1.2.2.2.2 (TId.node gid)]
            omega
          exact mapCandidates_depth g cfg args itemId _ cfg.depth hpd _ st1 ids3 st2 h2 hD1

theorem stepLoop_inv (g : Graph) (cfg : Config) (args : List String) :
    ∀ (fuel : Nat) (queue : List TId) (st st' : St),
      stepLoop g cfg args fuel queue st = .ok st' →
      DepthBound cfg.depth st → st.problems.Nodup → st.lsSeen.Nodup →
      DepthBound cfg.depth st' ∧ st'.problems.Nodup ∧ st'.lsSeen.Nodup := by
  intro fuel
  induction fuel with
  | zero =>
    intro queue st st' h hD hp hs
    cases queue with
    | nil =>
      simp only [stepLoop] at h
      injection h with hst
      subst hst
      exact ⟨hD, hp, hs⟩
    | cons t rest =>
      simp only [stepLoop] at h
      exact Except.noConfusion h
  | succ n ih =>
    intro queue st st' h hD hp hs
    cases queue with
    | nil =>
      simp only [stepLoop] at h
      injection h with hst
      subst hst
      exact ⟨hD, hp, hs⟩
    | cons t rest =>
      simp only [stepLoop] at h
      by_cases hm : t ∈ st.tvSeen
      · rw [if_pos hm] at h
        exact ih rest st st' h hD hp hs
      · rw [if_neg hm] at h
        cases hv : visit g cfg { st with tvSeen := st.tvSeen ++ [t] } t with
        | error e => simp only [hv] at h; exact Except.noConfusion h
        | ok p =>
          obtain ⟨itemId, st2⟩ := p
          simp only [hv] at h
          cases hg : getChildren g cfg args t itemId st2 with
          | error e => simp only [hg] at h; exact Except.noConfusion h
          | ok q =>
            obtain ⟨kids, st3⟩ := q
            simp only [hg] at h
            have pv := visit_props g cfg _ t itemId st2 hv
            have pg := getChildren_proj g cfg args t itemId st2 kids st3 hg
            have hD2 : DepthBound cfg.depth st2 := pv.2.2.2 cfg.depth (fun u => hD u)
            have hD3 : DepthBound cfg.depth st3 :=
              getChildren_depth g cfg args t itemId st2 kids st3 hg hD2
            have hp3 : st3.problems.Nodup := by rw [pg.1]; exact pv.2.1 hp
            have hs3 : st3.lsSeen.Nodup := by rw [pg.2.1]; exact pv.2.2.1 hs
            exact ih (rest ++ kids) st3 st' h hD3 hp3 hs3

/-- The traversal invariants at the end of a successful `ls` pass: every
recorded depth is at most depth + 1, and the `problems` and `seen` sets are
duplicate free. -/
theorem lsRun_inv (g : Graph) (cfg : Config) (args : List String) (fuel : Nat)
    (out : LsOut) (h : lsRun g cfg args fuel = .ok out) :
    DepthBound cfg.depth out.st ∧ out.st.problems.Nodup ∧ out.st.lsSeen.Nodup := by
  unfold lsRun at h
  cases hs : stepLoop g cfg args fuel [TId.node 0] (initSt args) with
  | error e => rw [hs] at h; exact Except.noConfusion h
  | ok st =>
    rw [hs] at h
    injection h with hout
    subst hout
    have hD0 : DepthBound cfg.depth (initSt args) := by
      intro u
      by_cases hu : u = TId.node 0 <;> simp [initSt, hu]
    exact stepLoop_inv g cfg args fuel [TId.node 0] (initSt args) st hs hD0
      List.nodup_nil List.nodup_nil


/-! ### Concrete fixtures used by counterexamples and witnesses -/

/-- Baseline configuration: tree mode, no kind filters, depth 10. -/
def cfg0 : Config :=
  { color := false, depth := 10, long := false, parseable := false, unicode := false,
    dev := false, development := false, link := false, only := "",
    prod := false, production := false, prefixPath := "/r", globalRoot := "/g" }

def cfgDepth0 : Config := { cfg0 with depth := 0 }

def cfgP : Config := { cfg0 with parseable := true }

def mkEdge (n v : String) (t : Option Nat) : Edge :=
  { name := n, spec := v, type := "prod", eto := t, missing := false, invalid := false,
    dev := false, peer := false, peerOptional := false, optional := false }

def mkNode (pk p : String) (es : List Edge) : GNode :=
  { dfltGNode with pkgid := pk, path := some p, realpath := some p, edgesOut := es }

/-- Chain root → a → b. -/
def gC1 : Graph :=
  { nodes := [ mkNode "root@1.0.0" "/r" [mkEdge "a" "1.0.0" (some 1)],
               mkNode "a@1.0.0" "/r/node_modules/a" [mkEdge "b" "1.0.0" (some 2)],
               mkNode "b@1.0.0" "/r/node_modules/b" [] ] }

/-- Chain root → a → b where only b satisfies the positional filter "b". -/
def gC2 : Graph :=
  { nodes := [ mkNode "root@1.0.0" "/r" [mkEdge "a" "1.0.0" (some 1)],
               mkNode "a@1.0.0" "/r/node_modules/a" [mkEdge "b" "1.0.0" (some 2)],
               { mkNode "b@1.0.0" "/r/node_modules/b" [] with satisfiesL := ["b"] } ] }

/-- Same-frontier diamond: root → a, root → b, a → c, b → c. -/
def gC3 : Graph :=
  { nodes := [ mkNode "root@1.0.0" "/r" [mkEdge "a" "1" (some 1), mkEdge "b" "1" (some 2)],
               mkNode "a@1.0.0" "/r/n/a" [mkEdge "c" "1" (some 3)],
               mkNode "b@1.0.0" "/r/n/b" [mkEdge "c" "1" (some 3)],
               mkNode "c@1.0.0" "/r/n/c" [] ] }

/-- Dedupe-visible diamond: root → aaa, root → zzz, zzz → aaa; aaa is visited
(at depth 1) before zzz expands. -/
def gC3b : Graph :=
  { nodes := [ mkNode "root@1.0.0" "/r" [mkEdge "aaa" "1" (some 1), mkEdge "zzz" "1" (some 2)],
               mkNode "aaa@1.0.0" "/r/n/aaa" [],
               mkNode "zzz@1.0.0" "/r/n/zzz" [mkEdge "aaa" "1" (some 1)] ] }

/-- Root with the two children B@1.0.0 and a@1.0.0 (mixed case). -/
def gC4 : Graph :=
  { nodes := [ mkNode "root@1.0.0" "/r" [mkEdge "B" "1.0.0" (some 1), mkEdge "a" "1.0.0" (some 2)],
               mkNode "B@1.0.0" "/r/n/B" [],
               mkNode "a@1.0.0" "/r/n/a" [] ] }

/-- Root with one missing (unresolved, non-optional) dependency. -/
def gMiss : Graph :=
  { nodes := [ mkNode "root@1.0.0" "/r"
      [{ mkEdge "bar" "^1.0.0" none with missing := true }] ] }

def dfltLsOut : LsOut :=
  { st := initSt [], resultNodes := [], finalEntries := [], exitCode := 0, effects := [] }

/-! ### Claim C1 -/

/-- Counterexample to claim C1 as stated: with configured maximum depth 0 the
direct dependency a@1.0.0 is still rendered — the root's render item has one
child entry — and its recorded depth is 1, which exceeds the configured
depth 0.  (The depth guard cuts children of nodes whose depth exceeds the
limit, so the cut only takes effect one level deeper than the claim says.) -/
theorem C1_counterexample :
    (lsRun gC1 cfgDepth0 [] 20).map (fun out =>
      (out.resultNodes, out.finalEntries, (out.st.fields (TId.node 1)).tdepth)) =
      .ok ([1], [Sum.inl 1], 1) ∧
    (1 : Nat) > cfgDepth0.depth := ⟨by rfl, by decide⟩

/-- Claim C1 (amended): for every graph and every configuration, the recorded
depth of any traversal object never exceeds the configured maximum depth + 1
(so with depth 0 the root and its direct dependencies are rendered), and any
traversal node whose recorded depth exceeds the configured depth produces
zero children. -/
theorem C1_amended (g : Graph) (cfg : Config) (args : List String) (fuel : Nat)
    (out : LsOut) (h : lsRun g cfg args fuel = .ok out) :
    (∀ t, (out.st.fields t).tdepth ≤ cfg.depth + 1) ∧
    (∀ t itemId st, (st.fields t).tdepth > cfg.depth →
      getChildren g cfg args t itemId st = .ok ([], st)) := by
  refine ⟨(lsRun_inv g cfg args fuel out h).1, ?_⟩
  intro t itemId st hgt
  cases t with
  | fresh fid => rfl
  | node gid =>
    simp only [getChildren]
    rw [if_pos hgt]

def outC1 : LsOut := ((lsRun gC1 cfgDepth0 [] 20).toOption).getD dfltLsOut

/-- Witness for C1_amended at the depth-0 run over gC1. -/
theorem C1_witness :
    ((outC1.st.fields (TId.node 1)).tdepth ≤ cfgDepth0.depth + 1) ∧
    getChildren gC1 cfgDepth0 [] (TId.node 1) 1 outC1.st = .ok ([], outC1.st) := by
  have h := C1_amended gC1 cfgDepth0 [] 20 outC1 (by rfl)
  exact ⟨h.1 (TId.node 1), h.2 (TId.node 1) 1 outC1.st (by decide)⟩

/-! ### Claim C2 -/

/-- Claim C2 evaluated at the failing input (root → a → b, positional filter
"b", tree mode): b matches and is marked included, but its ancestor traversal
node a is never marked included; the include flag instead lands on a's render
item (a flag the renderer never reads) and the upward walk stops there since
render items carry no parent pointer.  The matched node's path is therefore
disconnected from the root and the rendered tree degenerates to the
`(empty)` placeholder with exit status 1. -/
theorem C2_bug_eval :
    (lsRun gC2 cfg0 ["b"] 20).map (fun out =>
      ((out.st.fields (TId.node 1)).tinclude,
       (out.st.fields (TId.node 2)).tinclude,
       (out.st.items.getD 1 dfltItem).iinclude,
       (out.st.items.getD 1 dfltItem).inodes,
       out.finalEntries,
       out.exitCode)) =
    .ok (false, true, true, [2], [Sum.inr "(empty)"], 1) := by rfl

/-! ### Claim C3 -/

/-- Counterexample to claim C3 as stated: in the same-frontier diamond gC3
the Node c occupies two traversal positions (one under a, one under b), yet
no deduped traversal node is ever synthesized (the fresh store stays empty);
the second occurrence is skipped by the walker and c's overwritten parent
pointer makes it render under b — its later parent — while a shows no
children at all. -/
theorem C3_counterexample :
    (lsRun gC3 cfg0 [] 20).map (fun out =>
      (out.st.freshData.length,
       (out.st.items.getD 1 dfltItem).inodes,
       (out.st.items.getD 2 dfltItem).inodes,
       out.st.lsSeen)) =
    .ok (0, [], [3], [TId.node 0, TId.node 1, TId.node 2, TId.node 3]) := by rfl

theorem get?_append_length {α : Type _} (l : List α) (a : α) :
    (l ++ [a]).get? l.length = some a := by
  induction l with
  | nil => rfl
  | cons x xs ih => exact ih

/-- Claim C3 (amended): a candidate child that is already in the `seen` set
(i.e. whose Node was already visited) is replaced by a freshly allocated
deduped traversal node that carries the same pkgid and the dedupe flag; and
any plain traversal object (a deduped node or a missing placeholder, not an
Arborist node) produces zero children.  A repeated position that is queued
before the Node's first visit is instead coalesced by the walker with the
first occurrence, so the Node is rendered at most once with full detail. -/
theorem C3_amended (g : Graph) (st : St) (i : TId) (h : i ∈ st.lsSeen) :
    ((dedupeSwap g st i).1 = TId.fresh st.freshData.length ∧
     ((dedupeSwap g st i).2.fields (dedupeSwap g st i).1).tdedupe = true ∧
     pkgidOf g (dedupeSwap g st i).2 (dedupeSwap g st i).1 = pkgidOf g st i) ∧
    (∀ cfg args fid itemId st2,
      getChildren g cfg args (TId.fresh fid) itemId st2 = .ok ([], st2)) := by
  constructor
  · unfold dedupeSwap
    rw [if_pos h]
    refine ⟨rfl, by simp [setF], ?_⟩
    simp only [pkgidOf, setF_freshData]
    rw [get?_append_length]
  · intro cfg args fid itemId st2
    rfl

def stC3 : St := { initSt [] with lsSeen := [TId.node 1] }

/-- Witness for C3_amended: node 1 of gC3b is in the seen set of stC3. -/
theorem C3_witness :
    ((dedupeSwap gC3b stC3 (TId.node 1)).1 = TId.fresh stC3.freshData.length ∧
     ((dedupeSwap gC3b stC3 (TId.node 1)).2.fields (dedupeSwap gC3b stC3 (TId.node 1)).1).tdedupe = true ∧
     pkgidOf gC3b (dedupeSwap gC3b stC3 (TId.node 1)).2 (dedupeSwap gC3b stC3 (TId.node 1)).1 =
       pkgidOf gC3b stC3 (TId.node 1)) ∧
    getChildren gC3b cfg0 [] (TId.fresh 0) 0 stC3 = .ok ([], stC3) := by
  have h := C3_amended gC3b stC3 (TId.node 1) (by decide)
  exact ⟨h.1, h.2 cfg0 [] 0 0 stC3⟩

/-! ### Claim C4 -/

/-- Byte-wise (code-unit) lexicographic order on strings, the order claim C4
asserts for sibling entries. -/
def byteLeL : List Char → List Char → Bool
  | [], _ => true
  | _ :: _, [] => false
  | a :: as, b :: bs =>
      if a.toNat < b.toNat then true
      else if b.toNat < a.toNat then false
      else byteLeL as bs

def byteLe (a b : String) : Bool := byteLeL a.data b.data

/-- Counterexample to claim C4 as stated: the sibling list the source
produces for the root of gC4 is a@1.0.0 before B@1.0.0 (the localeCompare
collation puts the lowercase name first), which is strictly decreasing under
byte-wise comparison since B (0x42) precedes a (0x61). -/
theorem C4_counterexample :
    (getChildren gC4 cfg0 [] (TId.node 0) 0 (initSt [])).map
        (fun p => p.1.map (pkgidOf gC4 p.2)) = .ok ["a@1.0.0", "B@1.0.0"] ∧
    byteLe "a@1.0.0" "B@1.0.0" = false := ⟨by rfl, by rfl⟩

/-- Claim C4 (amended): the children list produced for any node is sorted
non-decreasing by pkgid under the collation order of
String.prototype.localeCompare (case-insensitive primary comparison with
lowercase-before-uppercase tiebreak), not under byte-wise comparison. -/
theorem C4_amended (g : Graph) (cfg : Config) (args : List String) (t : TId)
    (itemId : Nat) (st : St) (kids : List TId) (st' : St)
    (h : getChildren g cfg args t itemId st = .ok (kids, st')) :
    kids.Pairwise (fun a b => lcLe (pkgidOf g st' a) (pkgidOf g st' b) = true) := by
  cases t with
  | fresh fid =>
    simp only [getChildren] at h
    injection h with hpair
    injection hpair with hk hst
    subst hk
    exact List.Pairwise.nil
  | node gid =>
    simp only [getChildren] at h
    by_cases hdep : (st.fields (TId.node gid)).tdepth > cfg.depth
    · rw [if_pos hdep] at h
      injection h with hpair
      injection hpair with hk hst
      subst hk
      exact List.Pairwise.nil
    · rw [if_neg hdep] at h
      cases h1 : mapEdges g (g.node gid).pkgid
          ((g.node gid).edgesOut.filter (kindFilter cfg (TId.node gid == TId.node 0) g)) st with
      | error e => simp only [h1] at h; exact Except.noConfusion h
      | ok p =>
        obtain ⟨ids1, st1⟩ := p
        simp only [h1] at h
        cases h2 : mapCandidates g cfg args itemId ((st1.fields (TId.node gid)).tdepth)
            (ids1 ++ ((g.node gid).children.filter (fun c => (g.node c).extraneous)).map TId.node) st1 with
        | error e => simp only [h2] at h; exact Except.noConfusion h
        | ok q =>
          obtain ⟨ids3, st2⟩ := q
          simp only [h2] at h
          injection h with hpair
          injection hpair with hk hst
          subst hk
          subst hst
          exact pairwise_sortPkg (fun i => pkgidOf g st2 i) ids3

def c4run : List TId × St :=
  ((getChildren gC4 cfg0 [] (TId.node 0) 0 (initSt [])).toOption).getD ([], initSt [])

/-- Witness for C4_amended at the concrete root expansion of gC4. -/
theorem C4_witness :
    (c4run.1).Pairwise (fun a b => lcLe (pkgidOf gC4 c4run.2 a) (pkgidOf gC4 c4run.2 b) = true) :=
  C4_amended gC4 cfg0 [] (TId.node 0) 0 (initSt []) c4run.1 c4run.2 (by rfl)

/-! ### Claim C9 -/

/-- Claim C9: when the filtered result has no visible child entries the
renderer substitutes the single literal `(empty)` placeholder and the exit
status is 1 exactly when positional filters were supplied; with visible
entries the entries are rendered as-is and the status stays 0. -/
theorem C9_theorem (g : Graph) (cfg : Config) (args : List String) (fuel : Nat)
    (out : LsOut) (h : lsRun g cfg args fuel = .ok out) :
    (out.resultNodes = [] →
      out.finalEntries = [Sum.inr "(empty)"] ∧ (out.exitCode = 1 ↔ args ≠ [])) ∧
    (out.resultNodes ≠ [] →
      out.finalEntries = out.resultNodes.map Sum.inl ∧ out.exitCode = 0) := by
  unfold lsRun at h
  cases hs : stepLoop g cfg args fuel [TId.node 0] (initSt args) with
  | error e => rw [hs] at h; exact Except.noConfusion h
  | ok st =>
    rw [hs] at h
    injection h with hout
    subst hout
    constructor
    · intro hempty
      simp only [lsTail] at hempty ⊢
      rw [hempty]
      simp only [List.length_nil, if_pos rfl]
      refine ⟨rfl, ?_⟩
      cases args with
      | nil => simp
      | cons a as => simp
    · intro hne
      simp only [lsTail] at hne ⊢
      generalize hL : (st.items.getD 0 dfltItem).inodes = L at hne ⊢
      cases L with
      | nil => exact absurd rfl hne
      | cons x xs => simp

def outC9 : LsOut := ((lsRun gC1 cfg0 ["zzz"] 20).toOption).getD dfltLsOut

/-- Witness for C9 at scenario D: a filter that matches nothing. -/
theorem C9_witness :
    outC9.finalEntries = [Sum.inr "(empty)"] ∧
    (outC9.exitCode = 1 ↔ (["zzz"] : List String) ≠ []) :=
  (C9_theorem gC1 cfg0 ["zzz"] 20 outC9 (by rfl)).1 (by rfl)


/-! ### Claim C5 -/

def Eff.isErr : Eff → Bool
  | .err _ _ => true
  | _ => false

/-- Claim C5: a successful `ls` pass always has the rendering as its first
effect (never an error effect), followed exactly by the failure
classification: the root-parse failure (EJSONPARSE) when the root recorded a
parse error at its package.json path — taking precedence — else the
aggregate-problems failure (ELSPROBLEMS) whose message is the newline-joined
problem set when problems were collected, else nothing; and the problem set
is duplicate free. -/
theorem C5_theorem (g : Graph) (cfg : Config) (args : List String) (fuel : Nat)
    (out : LsOut) (h : lsRun g cfg args fuel = .ok out) :
    out.st.problems.Nodup ∧
    out.effects.head?.map Eff.isErr = some false ∧
    out.effects.tail =
      (if hasRootParseError g cfg = true then
        [Eff.err "EJSONPARSE" "Failed to parse root package.json"]
      else if out.st.problems.isEmpty = false then
        [Eff.err "ELSPROBLEMS" (String.intercalate EOL out.st.problems)]
      else []) := by
  refine ⟨(lsRun_inv g cfg args fuel out h).2.1, ?_⟩
  unfold lsRun at h
  cases hs : stepLoop g cfg args fuel [TId.node 0] (initSt args) with
  | error e => rw [hs] at h; exact Except.noConfusion h
  | ok st =>
    rw [hs] at h
    injection h with hout
    subst hout
    constructor
    · by_cases hp : cfg.parseable = true <;> simp [lsTail, hp, Eff.isErr]
    · simp only [lsTail, List.singleton_append, List.tail_cons]
      by_cases hr : hasRootParseError g cfg = true
      · simp [hr]
      · by_cases hq : st.problems.isEmpty = false
        · simp [hr, hq, Bool.not_eq_true']
        · simp [hr, hq, Bool.not_eq_true']

/-- Root with both a recorded EJSONPARSE error at /r/package.json and a
missing dependency: both failure conditions hold at once. -/
def gC5 : Graph :=
  { nodes := [ { mkNode "root@1.0.0" "/r"
      [{ mkEdge "bar" "^1.0.0" none with missing := true }] with
      errors := [{ code := "EJSONPARSE", path := "/r/package.json" }] } ] }

def outC5 : LsOut := ((lsRun gC5 cfg0 [] 20).toOption).getD dfltLsOut

/-- Witness for C5: with both failure conditions present, the root-parse
classification wins and follows the rendering. -/
theorem C5_witness :
    outC5.st.problems.Nodup ∧
    outC5.effects.head?.map Eff.isErr = some false ∧
    outC5.effects.tail =
      (if hasRootParseError gC5 cfg0 = true then
        [Eff.err "EJSONPARSE" "Failed to parse root package.json"]
      else if outC5.st.problems.isEmpty = false then
        [Eff.err "ELSPROBLEMS" (String.intercalate EOL outC5.st.problems)]
      else []) :=
  C5_theorem gC5 cfg0 [] 20 outC5 (by rfl)

/-! ### Claim C6 -/

/-- The problem-derivation contract as the claim states it: at most one
problem per traversal object, with priority missing, then invalid, then
extraneous, else none. -/
def specProblemC6 (g : Graph) (st : St) (t : TId) : Option String :=
  if truthyS (st.fields t).tmissing then
    some ("missing: " ++ pkgidOf g st t ++ ", required by " ++ ((st.fields t).tmissing.getD ""))
  else if (st.fields t).tinvalid then
    some ("invalid: " ++ pkgidOf g st t ++ " " ++ strOf (pathOf g st t))
  else if extraneousOf g st t then
    some ("extraneous: " ++ pkgidOf g st t ++ " " ++ strOf (pathOf g st t))
  else none

theorem problem_eq_spec (g : Graph) (st : St) (t : TId) :
    (if truthyS (st.fields t).tmissing then
      "missing: " ++ pkgidOf g st t ++ ", required by " ++ ((st.fields t).tmissing.getD "")
    else if (st.fields t).tinvalid then "invalid: " ++ pkgidOf g st t ++ " " ++ strOf (pathOf g st t)
    else if extraneousOf g st t then "extraneous: " ++ pkgidOf g st t ++ " " ++ strOf (pathOf g st t)
    else "") = (specProblemC6 g st t).getD "" := by
  by_cases h1 : truthyS (st.fields t).tmissing = true <;>
    by_cases h2 : (st.fields t).tinvalid = true <;>
    by_cases h3 : extraneousOf g st t = true <;>
    simp [specProblemC6, h1, h2, h3]

/-- Claim C6: the problem string computed for any visited traversal object is
exactly the specified priority cascade (missing, else invalid, else
extraneous, else none — encoded as the empty string), and the problems
collected over any successful pass are deduplicated (duplicate free). -/
theorem C6_theorem (g : Graph) (cfg : Config) (st : St) (t : TId)
    (lbl pro : String) (h : getHumanOutputItem g cfg st t = .ok (lbl, pro)) :
    pro = (specProblemC6 g st t).getD "" ∧
    (∀ args fuel out, lsRun g cfg args fuel = .ok out → out.st.problems.Nodup) := by
  refine ⟨?_, fun args fuel out hrun => (lsRun_inv g cfg args fuel out hrun).2.1⟩
  unfold getHumanOutputItem at h
  by_cases hl : cfg.long = true
  · simp only [if_pos hl] at h
    cases hpk : packageOf g st t with
    | none =>
      simp only [hpk] at h
      exact Except.noConfusion h
    | some pr =>
      obtain ⟨k, d⟩ := pr
      simp only [hpk] at h
      injection h with hpair
      injection hpair with hlbl hpro
      rw [← hpro]
      exact problem_eq_spec g st t
  · simp only [if_neg hl] at h
    injection h with hpair
    injection hpair with hlbl hpro
    rw [← hpro]
    exact problem_eq_spec g st t

def outC6 : LsOut := ((lsRun gMiss cfg0 [] 20).toOption).getD dfltLsOut

/-- Witness for C6 at the root of gMiss (no problem) and its run. -/
theorem C6_witness :
    ("" : String) = (specProblemC6 gMiss (initSt []) (TId.node 0)).getD "" ∧
    outC6.st.problems.Nodup := by
  have h := C6_theorem gMiss cfg0 (initSt []) (TId.node 0) "/r" "" (by rfl)
  exact ⟨h.1, h.2 [] 20 outC6 (by rfl)⟩

/-! ### Claim C8 -/

/-- The test of the regex `/^dev/` that claim C8 attributes to the `only`
category: the string starts with "dev". -/
def matchesCaretDev (s : String) : Bool :=
  match s.data with
  | 'd' :: 'e' :: 'v' :: _ => true
  | _ => false

/-- The dev-only activation condition exactly as claim C8 states it. -/
def claimC8DevActive (cfg : Config) : Bool :=
  cfg.dev || cfg.development || matchesCaretDev cfg.only

/-- The root kind filter as claim C8 describes it (with the /^dev/ test). -/
def claimC8Filter (cfg : Config) (g : Graph) (e : Edge) : Bool :=
  (if claimC8DevActive cfg then e.dev else true) &&
  (if cfg.prod || cfg.production || (cfg.only == "prod" || cfg.only == "production")
    then !e.dev && !e.peer && !e.peerOptional else true) &&
  (if cfg.link then (match e.eto with
                     | some gid => (g.node gid).isLink
                     | none => false) else true)

/-- The root kind filter with the activation condition corrected to the
anchored regex `/^dev(elopment)?$/` of the source. -/
def claimC8AmendedFilter (cfg : Config) (g : Graph) (e : Edge) : Bool :=
  (!(cfg.dev || cfg.development || (cfg.only == "dev" || cfg.only == "development")) || e.dev) &&
  (!(cfg.prod || cfg.production || (cfg.only == "prod" || cfg.only == "production")) ||
    (!e.dev && !e.peer && !e.peerOptional)) &&
  (!cfg.link || (match e.eto with
                 | some gid => (g.node gid).isLink
                 | none => false))

def cfgDevelop : Config := { cfg0 with only := "develop" }

def eC8dev : Edge := { mkEdge "d" "1.0.0" (some 1) with dev := true }

def eC8prod : Edge := mkEdge "p" "1.0.0" (some 2)

def gC8 : Graph :=
  { nodes := [ mkNode "root@1.0.0" "/r" [eC8dev, eC8prod],
               mkNode "d@1.0.0" "/r/n/d" [],
               mkNode "p@1.0.0" "/r/n/p" [] ] }

/-- Counterexample to claim C8 as stated: with only = "develop" (which
matches /^dev/ but not the source's anchored /^dev(elopment)?$/), the claim
predicts the dev-only filter is active at the root and drops the non-dev
edge, but the source's filter keeps every edge. -/
theorem C8_counterexample :
    claimC8DevActive cfgDevelop = true ∧
    (gC8.node 0).edgesOut.filter (kindFilter cfgDevelop true gC8) = [eC8dev, eC8prod] ∧
    (gC8.node 0).edgesOut.filter (claimC8Filter cfgDevelop gC8) = [eC8dev] ∧
    eC8prod.dev = false := ⟨by rfl, by decide, by decide, by rfl⟩

theorem if_bool_or (c x : Bool) : (if c = true then x else true) = (!c || x) := by
  cases c <;> simp

/-- Claim C8 (amended): the three kind filters drop no edge when the node
being expanded is not the root, and at the root they coincide with the
claim's filter once the dev-only activation is corrected to the anchored
regex (only = "dev" or "development"). -/
theorem C8_amended (cfg : Config) (g : Graph) (e : Edge) :
    kindFilter cfg false g e = true ∧
    kindFilter cfg true g e = claimC8AmendedFilter cfg g e := by
  constructor
  · simp [kindFilter]
  · simp only [kindFilter, claimC8AmendedFilter, Bool.true_and, if_bool_or]

/-! ### Claim C10 -/

/-- Is the traversal object a shared Arborist node (as opposed to a plain
placeholder or dedupe object)? -/
def isRealNode : TId → Bool
  | .node _ => true
  | .fresh _ => false

theorem filterMap_eq_filterMap_filter {α β : Type _} (f : α → Option β) (p : α → Bool)
    (hfp : ∀ x, p x = false → f x = none) :
    ∀ l : List α, l.filterMap f = (l.filter p).filterMap f := by
  intro l
  induction l with
  | nil => rfl
  | cons x xs ih =>
    cases hx : p x with
    | false =>
      simp only [List.filterMap_cons, List.filter_cons, hx, hfp x hx]
      simpa using ih
    | true =>
      simp only [List.filterMap_cons, List.filter_cons, hx, if_true]
      cases hfx : f x <;> simp [List.filterMap_cons, hfx, ih]

/-- Claim C10: a synthesized missing-dependency placeholder never contributes
a parseable output line: a placeholder carries no installation path, the line
guard rejects it before the error/realpath/extraneous reads, and the
parseable rendering therefore equals the rendering restricted to real
Arborist nodes. -/
theorem C10_theorem (g : Graph) (cfg : Config) (args : List String) (fuel : Nat)
    (out : LsOut) (_h : lsRun g cfg args fuel = .ok out) :
    (∀ fid nm pk, out.st.freshData.get? fid = some (FreshData.ph nm pk) →
      pathOf g out.st (TId.fresh fid) = none ∧
      parseableLine g cfg out.st (TId.fresh fid) = none) ∧
    out.st.lsSeen.filterMap (parseableLine g cfg out.st) =
      (out.st.lsSeen.filter isRealNode).filterMap (parseableLine g cfg out.st) := by
  refine ⟨?_, ?_⟩
  · intro fid nm pk hph
    exact ⟨rfl, by simp [parseableLine, pathOf, truthyS]⟩
  · apply filterMap_eq_filterMap_filter
    intro x hx
    cases x with
    | node gid => simp [isRealNode] at hx
    | fresh fid => simp [parseableLine, pathOf, truthyS]

def outC10 : LsOut := ((lsRun gMiss cfgP [] 20).toOption).getD dfltLsOut

/-- Witness for C10 at the parseable run over gMiss (placeholder fresh 0). -/
theorem C10_witness :
    (pathOf gMiss outC10.st (TId.fresh 0) = none ∧
     parseableLine gMiss cfgP outC10.st (TId.fresh 0) = none) ∧
    outC10.st.lsSeen.filterMap (parseableLine gMiss cfgP outC10.st) =
      (outC10.st.lsSeen.filter isRealNode).filterMap (parseableLine gMiss cfgP outC10.st) := by
  have h := C10_theorem gMiss cfgP [] 20 outC10 (by rfl)
  exact ⟨h.1 0 "bar" "bar@^1.0.0" (by rfl), h.2⟩


/-! ### Claim C7 -/

/-- One parseable line as claim C7 describes it: the installation path of an
included traversal object having a concrete path; in verbose (long) mode the
path is extended, in this order, with the pkgid, the realpath only when it
differs from the path, the EXTRANEOUS marker, the ERROR marker when the node
recorded errors (suppressed at the synthetic global-root-parent path), and
the INVALID marker. -/
def specLineC7 (g : Graph) (cfg : Config) (st : St) (t : TId) : Option String :=
  match pathOf g st t with
  | none => none
  | some p =>
      if p ≠ "" ∧ (st.fields t).tinclude = true then
        some (p ++ (if cfg.long = true then
            ":" ++ pkgidOf g st t
            ++ (if realpathOf g st t ≠ some p then ":" ++ strOf (realpathOf g st t) else "")
            ++ (if extraneousOf g st t = true then ":EXTRANEOUS" else "")
            ++ (if errorsOf g st t ≠ [] ∧ p ≠ cfg.globalRoot then ":ERROR" else "")
            ++ (if (st.fields t).tinvalid = true then ":INVALID" else "")
          else ""))
      else none

theorem parseableLine_eq_spec (g : Graph) (cfg : Config) (st : St) (t : TId) :
    parseableLine g cfg st t = specLineC7 g cfg st t := by
  unfold parseableLine specLineC7
  cases hpath : pathOf g st t with
  | none => simp [truthyS]
  | some p =>
    simp only [hpath]
    by_cases hinc : (st.fields t).tinclude = true
    · by_cases hp0 : p = ""
      · subst hp0
        have hb : (("" : String) != "") = false := by decide
        simp [truthyS, hb]
      · have hpb : (p != "") = true := bne_iff_ne.mpr hp0
        have hg : (truthyS (some p) && (st.fields t).tinclude) = true := by
          show ((p != "") && (st.fields t).tinclude) = true
          rw [hpb, hinc]
          rfl
        rw [if_pos hg, if_pos (And.intro hp0 hinc)]
        by_cases hl : cfg.long = true
        · rw [if_pos hl, if_pos hl]
          have e1 : (if some p ≠ realpathOf g st t then ":" ++ strOf (realpathOf g st t) else "")
              = (if realpathOf g st t ≠ some p then ":" ++ strOf (realpathOf g st t) else "") :=
            if_congr ne_comm rfl rfl
          have e2 : (if ((errorsOf g st t).length ≠ 0 && (some p ≠ some cfg.globalRoot)) = true
                then (":ERROR" : String) else "")
              = (if errorsOf g st t ≠ [] ∧ p ≠ cfg.globalRoot then ":ERROR" else "") := by
            refine if_congr ?_ rfl rfl
            simp [List.length_eq_zero]
          rw [e1, e2]
          rfl
        · rw [if_neg hl, if_neg hl]
          rfl
    · have hincf : (st.fields t).tinclude = false := by
        cases hb : (st.fields t).tinclude
        · rfl
        · exact absurd hb hinc
      simp [truthyS, hincf, hinc]

/-- Claim C7: in parseable mode the emitted rendering is, before any failure
effect, exactly one line per visited traversal object that is included and
has a concrete path, in visitation order, each line shaped as the claim
specifies (path, then in long mode :pkgid, conditional :realpath,
:EXTRANEOUS, :ERROR, :INVALID), the whole output trimmed once; the visited
set is duplicate free (one line per Node, never one per deduped position),
and no freshly synthesized object (dedupe node or placeholder) produces a
line. -/
theorem C7_theorem (g : Graph) (cfg : Config) (args : List String) (fuel : Nat)
    (out : LsOut) (hp : cfg.parseable = true) (h : lsRun g cfg args fuel = .ok out) :
    out.effects.head? = some (Eff.outP ((String.join ((out.st.lsSeen.filterMap
        (specLineC7 g cfg out.st)).map (fun l => l ++ EOL))).trim)) ∧
    out.st.lsSeen.Nodup ∧
    (∀ fid, parseableLine g cfg out.st (TId.fresh fid) = none) := by
  refine ⟨?_, (lsRun_inv g cfg args fuel out h).2.2, ?_⟩
  · unfold lsRun at h
    cases hs : stepLoop g cfg args fuel [TId.node 0] (initSt args) with
    | error e => rw [hs] at h; exact Except.noConfusion h
    | ok st =>
      rw [hs] at h
      injection h with hout
      subst hout
      simp only [lsTail, if_pos hp, List.singleton_append, List.head?_cons]
      unfold parseableOut
      have hfun : parseableLine g cfg st = specLineC7 g cfg st :=
        funext (fun u => parseableLine_eq_spec g cfg st u)
      rw [hfun]
  · intro fid
    simp [parseableLine, pathOf, truthyS]

def outC7 : LsOut := ((lsRun gC1 cfgP [] 20).toOption).getD dfltLsOut

/-- Witness for C7 at the parseable run over gC1. -/
theorem C7_witness :
    outC7.effects.head? = some (Eff.outP ((String.join ((outC7.st.lsSeen.filterMap
        (specLineC7 gC1 cfgP outC7.st)).map (fun l => l ++ EOL))).trim)) ∧
    outC7.st.lsSeen.Nodup ∧
    parseableLine gC1 cfgP outC7.st (TId.fresh 0) = none := by
  have h := C7_theorem gC1 cfgP [] 20 outC7 (by rfl) (by rfl)
  exact ⟨h.1, h.2.1, h.2.2 0⟩

end NpmLs
